import Mathlib

/-!
Shallow embedding of the `check` binary of the
`concourse-gitlab-merge-request-resource` repository (src/src/check.rs).

The embedding covers the version-reconciliation pipeline of `main`:
candidate building (null-sha skip, path filter, commit fetch, age filter),
sorting, current-version-relative filtering with latest-per-MR reduction,
the persisted `CheckState` (returned/resurrected sha sets), the
resurrection detector with its cooldown and CI-status suppression, and the
final emit/state-save step.

Modelling conventions:
* RFC3339 date strings are modelled by a `DateVal` carrying the parsed
  timestamp in seconds (`chrono`'s `DateTime::timestamp`) together with the
  parsed year (`Datelike::year`).  The code's string comparison
  `a.committed_date.cmp(&b.committed_date)` on uniformly formatted UTC
  strings orders exactly like the timestamp, so the sort comparator is
  modelled as comparison of `seconds`.
* `Utc::now()` is modelled by a single instant `Env.now` for the run.
* The GitLab adapter (list MRs, list diffs, get commit, list statuses) is
  an input `Snapshot` of fallible results, mirroring the `Query` calls.
  Commit statuses are keyed by sha (the code keys by project id and sha;
  the project id is derived from the sha's MR).
* Glob matching (`glob::Pattern::matches`) is an external library; it is a
  Boolean-valued parameter `Env.globMatches pattern path`.
* `HashSet<String>` is a `Finset String`; `HashMap<String, Version>`
  (`mr_latest`) is an association list in insertion order, with in-place
  replacement on key collision.  `Vec` loops that push are structural
  recursions producing the list in iteration order.
* The state file on disk is a `DiskRead` (found-and-parsed, found-but-
  unparsable, missing, unreadable), mirroring the four arms of
  `CheckState::load`; `save` with the atomic temp-file rename either
  replaces the content or (on failure) leaves the old content.
-/

namespace MrRes

/-- A parsed RFC3339 date: the epoch timestamp in seconds and the year. -/
structure DateVal where
  seconds : Int
  year : Int
deriving DecidableEq

/-- Model of `Version` from common.rs: `{ iid, committed_date, sha }`. -/
structure Version where
  iid : String
  committed_date : DateVal
  sha : String
deriving DecidableEq

/-- The fields of a GitLab merge request that check.rs reads: `iid`,
head `sha` (null when the source branch was deleted), `updated_at`. -/
structure MergeRequest where
  iid : Nat
  sha : Option String
  updated_at : DateVal
deriving DecidableEq

/-- A commit status entry; only its presence is inspected by check.rs. -/
structure CommitStatus where
  name : Option String
  status : String
deriving DecidableEq

/-- The `Source` options of check.rs that influence the pipeline
(`uri`, `private_token`, `labels`, `target_branch`, `skip_draft` only
shape the upstream query, which is part of the `Snapshot`). -/
structure Source where
  paths : Option (List String)
  max_age_days : Option Nat
  commit_date_window_days : Option Nat
  disable_resurrection : Option Bool
deriving DecidableEq

/-- The JSON document read from standard input. -/
structure ResourceInput where
  version : Option Version
  source : Source
deriving DecidableEq

/-- Model of `CheckState`: the persisted sets of returned and resurrected SHAs. -/
structure CheckState where
  returned_shas : Finset String
  resurrected_shas : Finset String
deriving DecidableEq

/-- Model of `CheckState::default()`: both sets empty. -/
def CheckState.default : CheckState := ⟨∅, ∅⟩

/-- Outcome of reading the state file: found and parsed, found but
unparsable, missing, or unreadable. -/
inductive DiskRead where
  | found (parsed : Option CheckState)
  | notFound
  | readError
deriving DecidableEq

/-- Model of `CheckState::load`: the parsed state on success, the empty state on a
parse error, a missing file, or a read error. -/
def CheckState.load : DiskRead → CheckState
  | .found (some s) => s
  | .found none => CheckState.default
  | .notFound => CheckState.default
  | .readError => CheckState.default

/-- Model of `CheckState::was_returned`. -/
def CheckState.was_returned (st : CheckState) (sha : String) : Bool :=
  decide (sha ∈ st.returned_shas)

/-- Model of `CheckState::mark_returned`. -/
def CheckState.mark_returned (st : CheckState) (sha : String) : CheckState :=
  { st with returned_shas := insert sha st.returned_shas }

/-- Model of `CheckState::was_resurrected`. -/
def CheckState.was_resurrected (st : CheckState) (sha : String) : Bool :=
  decide (sha ∈ st.resurrected_shas)

/-- Model of `CheckState::mark_resurrected`. -/
def CheckState.mark_resurrected (st : CheckState) (sha : String) : CheckState :=
  { st with resurrected_shas := insert sha st.resurrected_shas }

/-- The upstream adapter's responses for one run: the paged merge-request
query, per-MR diffs, per-sha commit metadata, per-sha commit statuses.
Each is fallible (network or parse failure), as the `Query` calls are. -/
structure Snapshot where
  mrs : Except String (List MergeRequest)
  diffs : Nat → Except String (List String)
  commitDate : String → Except String DateVal
  statuses : String → Except String (List CommitStatus)

/-- Ambient facts of a run: the current instant, the
`DISABLE_RESURRECTION=true` environment override, and the glob matcher. -/
structure Env where
  now : DateVal
  envDisableResurrection : Bool
  globMatches : String → String → Bool

/-- The `max_age_days` option, defaulting to 90. -/
def maxAgeOf (src : Source) : Nat := src.max_age_days.getD 90

/-- The cutoff instant `Utc::now() - Duration::days(max_age_days)`. -/
def cutoffOf (src : Source) (env : Env) : Int :=
  env.now.seconds - (maxAgeOf src : Int) * 86400

/-- The `commit_date_window_days` option, defaulting to `max_age_days`. -/
def windowOf (src : Source) : Nat :=
  src.commit_date_window_days.getD (maxAgeOf src)

/-- One iteration of the merge-request processing loop of `main`:
skip on null sha; fetch diffs and apply the path filter when `paths` is
configured; fetch the commit; skip when the MR's `updated_at` is before
the cutoff; otherwise produce the candidate
`Version { iid, committed_date: commit date, sha }`. -/
def processMR (src : Source) (snap : Snapshot) (env : Env) (cutoff : Int)
    (mr : MergeRequest) : Except String (Option Version) :=
  match mr.sha with
  | none => .ok none
  | some sha => do
    let pathOk ←
      match src.paths with
      | some pats => do
        let files ← snap.diffs mr.iid
        pure (pats.any fun pat => files.any fun f => env.globMatches pat f)
      | none => pure true
    if pathOk then do
      let cd ← snap.commitDate sha
      if mr.updated_at.seconds < cutoff then
        pure none
      else
        pure (some ⟨toString mr.iid, cd, sha⟩)
    else
      pure none

/-- The full merge-request processing loop, aborting on the first adapter
failure (the `?` propagation in the loop body). -/
def buildAll (src : Source) (snap : Snapshot) (env : Env) (cutoff : Int) :
    List MergeRequest → Except String (List Version)
  | [] => .ok []
  | mr :: rest => do
    let v? ← processMR src snap env cutoff mr
    let vs ← buildAll src snap env cutoff rest
    pure (match v? with | some v => v :: vs | none => vs)

/-- Stable insertion into a list sorted ascending by commit date: the new
element goes after all elements with an earlier-or-equal date. -/
def insertByDate (v : Version) : List Version → List Version
  | [] => [v]
  | w :: ws =>
    if v.committed_date.seconds < w.committed_date.seconds then v :: w :: ws
    else w :: insertByDate v ws

/-- Model of the code's `sort_by` on `committed_date`: a stable
sort ascending by commit date. -/
def sortByDate (l : List Version) : List Version :=
  l.foldl (fun acc v => insertByDate v acc) []

/-- The `should_include` predicate of the current-version-relative filter:
current MR itself, strictly newer commit, or a different MR whose commit
is within `commit_date_window_days` of the current version's commit. -/
def shouldInclude (cur : Version) (window : Nat) (v : Version) : Bool :=
  (v.iid == cur.iid)
    || decide (v.committed_date.seconds > cur.committed_date.seconds)
    || ((v.iid != cur.iid)
        && decide ((cur.committed_date.seconds - v.committed_date.seconds).natAbs / 86400
            < window))

/-- One `mr_latest` update: keep the entry with the later commit for an
existing iid (ties keep the existing one), append a fresh iid. -/
def upsertLatest : List (String × Version) → Version → List (String × Version)
  | [], v => [(v.iid, v)]
  | (k, e) :: rest, v =>
    if k == v.iid then
      if e.committed_date.seconds < v.committed_date.seconds then (k, v) :: rest
      else (k, e) :: rest
    else (k, e) :: upsertLatest rest v

/-- The smart MR-aware filtering: group the filtered candidates by iid
keeping the latest commit per MR, then re-insert the current version when
its iid is absent (the Concourse contract). -/
def mrLatestValues (cur : Version) (nv : List Version) : List Version :=
  let m := nv.foldl upsertLatest []
  let m' := if m.any (fun p => p.1 == cur.iid) then m else m ++ [(cur.iid, cur)]
  m'.map (·.2)

/-- Model of `filtered_versions`: with a current version, filter by
`should_include`, reduce to the latest commit per MR, re-insert the
current version if needed and sort; without one, all candidates. -/
def filteredVersions (input : ResourceInput) (window : Nat)
    (avsSorted : List Version) : List Version :=
  match input.version with
  | some cur => sortByDate (mrLatestValues cur (avsSorted.filter (shouldInclude cur window)))
  | none => avsSorted

/-- Model of `resurrection_enabled`: false on the explicit config/env override, and
with a current version also false when its date is the legacy far-future
sentinel (year ≥ 2099) or within 2 minutes of now. -/
def resurrectionEnabled (input : ResourceInput) (env : Env) : Bool :=
  let explicitlyDisabled :=
    input.source.disable_resurrection.getD false || env.envDisableResurrection
  match input.version with
  | some v =>
    if explicitlyDisabled then false
    else if decide (v.committed_date.year ≥ 2099)
        || decide ((env.now.seconds - v.committed_date.seconds).natAbs < 120) then false
    else true
  | none => !explicitlyDisabled

/-- The three accumulators of the partition loop over `filtered_versions`:
kept (current or genuinely new) versions, resurrected synthetic versions,
and the original SHAs of the resurrected versions. -/
structure Partition where
  newVersions : List Version
  resurrectedVersions : List Version
  resurrectedShas : List String
deriving DecidableEq

/-- The CI-status probe before resurrecting: look the sha up in the
`sha_to_mr` map built from the MR list; when found, any status entry of a
successful statuses query suppresses resurrection, while a failed query
(or an absent map entry) lets resurrection proceed ("resurrecting
anyway"). -/
def hasCiStatus (snap : Snapshot) (mrs : List MergeRequest) (sha : String) : Bool :=
  if mrs.any (fun m => m.sha == some sha) then
    match snap.statuses sha with
    | .ok l => !l.isEmpty
    | .error _ => false
  else false

/-- The partition loop of `main` over `filtered_versions`: keep the
current version; resurrect (with `now` as the fake date) a previously
returned, non-current, not-yet-resurrected sha when resurrection is
enabled and the commit has no CI status; silently drop other previously
returned shas; keep the rest as genuinely new. -/
def partitionVersions (st : CheckState) (enabled : Bool) (currentSha : Option String)
    (snap : Snapshot) (mrs : List MergeRequest) (now : DateVal) :
    List Version → Partition
  | [] => ⟨[], [], []⟩
  | v :: rest =>
    let p := partitionVersions st enabled currentSha snap mrs now rest
    if currentSha == some v.sha then
      ⟨v :: p.newVersions, p.resurrectedVersions, p.resurrectedShas⟩
    else if st.was_returned v.sha && enabled && !(st.was_resurrected v.sha) then
      if hasCiStatus snap mrs v.sha then p
      else
        ⟨p.newVersions, ⟨v.iid, now, v.sha⟩ :: p.resurrectedVersions,
          v.sha :: p.resurrectedShas⟩
    else if st.was_returned v.sha then p
    else ⟨v :: p.newVersions, p.resurrectedVersions, p.resurrectedShas⟩

/-- The `mark_resurrected` loop over the collected resurrected SHAs. -/
def markResurrectedAll (st : CheckState) (l : List String) : CheckState :=
  l.foldl CheckState.mark_resurrected st

/-- The `mark_returned` loop over the new SHAs to save. -/
def markReturnedAll (st : CheckState) (l : List String) : CheckState :=
  l.foldl CheckState.mark_returned st

/-- The pure tail of the run once the candidate versions are built: final
filtering, state partition, new-sha collection, final sort, and the state
mutations. -/
structure CoreOut where
  final : List Version
  newShas : List String
  resShas : List String
  newState : CheckState
deriving DecidableEq

/-- The partition a run computes over its filtered versions. -/
def runPartition (input : ResourceInput) (snap : Snapshot) (env : Env)
    (st : CheckState) (mrs : List MergeRequest) (avs : List Version) : Partition :=
  partitionVersions st (resurrectionEnabled input env) (input.version.map (·.sha))
    snap mrs env.now (filteredVersions input (windowOf input.source) (sortByDate avs))

/-- Model of `new_shas_to_save`: the SHAs of the kept versions other than the
current version. -/
def newShasOf (input : ResourceInput) (p : Partition) : List String :=
  (p.newVersions.filter (fun v => !(input.version.map (·.sha) == some v.sha))).map (·.sha)

/-- The state-based part of `main`, from `filtered_versions` through the
final sorted output and the in-memory state mutations. -/
def corePipeline (input : ResourceInput) (snap : Snapshot) (env : Env)
    (st : CheckState) (mrs : List MergeRequest) (avs : List Version) : CoreOut :=
  let p := runPartition input snap env st mrs avs
  let newShas := newShasOf input p
  ⟨sortByDate (p.resurrectedVersions ++ p.newVersions), newShas, p.resurrectedShas,
    markReturnedAll (markResurrectedAll st p.resurrectedShas) newShas⟩

/-- Model of `CheckState::save` through the temp-file-plus-rename: on success the
file holds the new state, on failure the old content survives. -/
def saveDisk (st : CheckState) (saveOk : Bool) (d : DiskRead) : DiskRead :=
  if saveOk then .found (some st) else d

instance exceptDecEq {ε α : Type} [DecidableEq ε] [DecidableEq α] :
    DecidableEq (Except ε α)
  | .ok a, .ok b =>
    if h : a = b then .isTrue (by rw [h]) else .isFalse (by intro hc; cases hc; exact h rfl)
  | .ok _, .error _ => .isFalse (by intro hc; cases hc)
  | .error _, .ok _ => .isFalse (by intro hc; cases hc)
  | .error e, .error f =>
    if h : e = f then .isTrue (by rw [h]) else .isFalse (by intro hc; cases hc; exact h rfl)

/-- The observable outcome of one `check` invocation: the JSON array
written to standard output (or the process failure), the state file
content afterwards, and the run's new and resurrected sha lists. -/
structure RunResult where
  output : Except String (List Version)
  disk : DiskRead
  newShas : List String
  resurrectedShas : List String
deriving DecidableEq

/-- The tail of a run that reached the state-based filtering: run the pure
pipeline against the loaded state, emit the sorted result, and persist the
state when it changed (a save failure keeps the old file content). -/
def runMain (input : ResourceInput) (snap : Snapshot) (env : Env)
    (disk : DiskRead) (saveOk : Bool) (mrs : List MergeRequest)
    (avs : List Version) : RunResult :=
  let c := corePipeline input snap env (CheckState.load disk) mrs avs
  ⟨.ok c.final,
    if !(c.newShas.isEmpty && c.resShas.isEmpty) then saveDisk c.newState saveOk disk
    else disk,
    c.newShas, c.resShas⟩

/-- One full run of `main`: fetch the MR list (adapter failure aborts),
emit `[]` at once on an empty list, build the candidates (adapter failure
aborts), then hand over to the state-based tail. -/
def runCheck (input : ResourceInput) (snap : Snapshot) (env : Env)
    (disk : DiskRead) (saveOk : Bool) : RunResult :=
  match snap.mrs with
  | .error e => ⟨.error e, disk, [], []⟩
  | .ok mrs =>
    if mrs.isEmpty then ⟨.ok [], disk, [], []⟩
    else
      match buildAll input.source snap env (cutoffOf input.source env) mrs with
      | .error e => ⟨.error e, disk, [], []⟩
      | .ok avs => runMain input snap env disk saveOk mrs avs

/-- A run's inputs when chaining several runs over the persisted state. -/
structure RunSpec where
  input : ResourceInput
  snap : Snapshot
  env : Env

/-- A sequence of runs with the state file persisted between them (every
save succeeds and nothing else touches the file). -/
def runSeq : DiskRead → List RunSpec → List RunResult
  | _, [] => []
  | d, r :: rs =>
    let res := runCheck r.input r.snap r.env d true
    res :: runSeq res.disk rs

/-! Concrete fixtures used to evaluate the theorems on explicit inputs. -/

/-- A source with no optional settings. -/
def srcPlain : Source := ⟨none, none, none, none⟩

/-- An environment: now is second 1000000 of year 2025, no env override. -/
def envPlain : Env := ⟨⟨1000000, 2025⟩, false, fun _ _ => false⟩

/-- A current version on MR 2 at second 950000, sha `b`. -/
def curB : Version := ⟨"2", ⟨950000, 2025⟩, "b"⟩

/-- MR 1 with head sha `a`, updated at second 990000. -/
def mrA : MergeRequest := ⟨1, some "a", ⟨990000, 2025⟩⟩

/-- MR 2 with head sha `b`, updated at second 995000. -/
def mrB : MergeRequest := ⟨2, some "b", ⟨995000, 2025⟩⟩

/-- A snapshot with no open merge requests. -/
def snapEmpty : Snapshot :=
  ⟨.ok [], fun _ => .ok [], fun _ => .error "no commit", fun _ => .ok []⟩

/-- Commit dates for the fixtures: `a` at second 900000, `b` at 950000. -/
def cdAB (s : String) : Except String DateVal :=
  if s = "a" then .ok ⟨900000, 2025⟩
  else if s = "b" then .ok ⟨950000, 2025⟩
  else .error "no commit"

/-- A snapshot with MRs 2 and 1 open and no commit statuses anywhere. -/
def snapAB : Snapshot := ⟨.ok [mrB, mrA], fun _ => .ok [], cdAB, fun _ => .ok []⟩

/-- A snapshot with only MR 1 open. -/
def snapA : Snapshot := ⟨.ok [mrA], fun _ => .ok [], cdAB, fun _ => .ok []⟩

/-- Like `snapAB` but commit `a` has one (pending) CI status. -/
def snapABci : Snapshot :=
  { snapAB with
    statuses := fun s => if s = "a" then .ok [⟨some "job", "pending"⟩] else .ok [] }

/-- Like `snapAB` but every commit-status query fails. -/
def snapABerr : Snapshot := { snapAB with statuses := fun _ => .error "boom" }

/-- Like `snapAB` but both commits share the commit date 900000. -/
def snapTie : Snapshot :=
  ⟨.ok [mrB, mrA], fun _ => .ok [], fun _ => .ok ⟨900000, 2025⟩, fun _ => .ok []⟩

/-- A snapshot where the merge-request listing itself fails. -/
def snapDown : Snapshot :=
  ⟨.error "gitlab down", fun _ => .ok [], fun _ => .error "no commit", fun _ => .ok []⟩

/-- A state file whose content has sha `a` returned and nothing resurrected. -/
def diskRetA : DiskRead := .found (some ⟨{"a"}, ∅⟩)

/-- The non-strict comparison used by the final sort. -/
def leDate (a b : Version) : Prop :=
  a.committed_date.seconds ≤ b.committed_date.seconds

instance : DecidableRel leDate := fun a b =>
  inferInstanceAs (Decidable (a.committed_date.seconds ≤ b.committed_date.seconds))

/-- Lexicographic comparison of character lists by code point. -/
def charListLe : List Char → List Char → Bool
  | [], _ => true
  | _ :: _, [] => false
  | a :: as, b :: bs =>
    if a.val < b.val then true
    else if b.val < a.val then false
    else charListLe as bs

/-- Lexicographic order on entity-id strings. -/
def iidLe (a b : String) : Bool := charListLe a.data b.data

/-- The ordering the specification claims for the output: ascending by
commit timestamp with ties broken by entity id. -/
def leDateIid (a b : Version) : Prop :=
  a.committed_date.seconds < b.committed_date.seconds ∨
    (a.committed_date.seconds = b.committed_date.seconds ∧ iidLe a.iid b.iid = true)

instance : DecidableRel leDateIid := fun x y =>
  inferInstanceAs (Decidable
    (x.committed_date.seconds < y.committed_date.seconds ∨
      (x.committed_date.seconds = y.committed_date.seconds ∧ iidLe x.iid y.iid = true)))

/-- The list a run printed to standard output (empty on a failed run);
used only to state properties of successful outputs. -/
def RunResult.okList (r : RunResult) : List Version :=
  match r.output with
  | .ok l => l
  | .error _ => []

/-! Lemmas about the stable sort. -/

theorem mem_insertByDate {a v : Version} {l : List Version} :
    a ∈ insertByDate v l ↔ a = v ∨ a ∈ l := by
  induction l with
  | nil => simp [insertByDate]
  | cons w ws ih =>
    simp only [insertByDate]
    split
    · simp [List.mem_cons]
    · simp [List.mem_cons, ih]
      tauto

theorem mem_foldl_insertByDate {a : Version} :
    ∀ (l acc : List Version),
      a ∈ l.foldl (fun acc v => insertByDate v acc) acc ↔ a ∈ acc ∨ a ∈ l := by
  intro l
  induction l with
  | nil => simp
  | cons v vs ih =>
    intro acc
    simp only [List.foldl_cons, ih, mem_insertByDate, List.mem_cons]
    tauto

theorem mem_sortByDate {a : Version} {l : List Version} :
    a ∈ sortByDate l ↔ a ∈ l := by
  simp [sortByDate, mem_foldl_insertByDate]

theorem head?_insertByDate (v : Version) (l : List Version) :
    (insertByDate v l).head? = some v ∨ (insertByDate v l).head? = l.head? := by
  cases l with
  | nil => simp [insertByDate]
  | cons w ws =>
    simp only [insertByDate]
    split
    · simp
    · simp

theorem chain'_insertByDate {v : Version} {l : List Version}
    (h : List.Chain' leDate l) : List.Chain' leDate (insertByDate v l) := by
  induction l with
  | nil => simp [insertByDate]
  | cons w ws ih =>
    simp only [insertByDate]
    split
    · rename_i hlt
      exact List.Chain'.cons (le_of_lt hlt) h
    · rename_i hge
      rw [List.chain'_cons'] at h ⊢
      refine ⟨?_, ih h.2⟩
      intro b hb
      rcases head?_insertByDate v ws with h1 | h1
      · rw [h1] at hb
        cases hb
        exact le_of_not_lt hge
      · rw [h1] at hb
        exact h.1 b hb

theorem chain'_foldl_insertByDate :
    ∀ (l acc : List Version), List.Chain' leDate acc →
      List.Chain' leDate (l.foldl (fun acc v => insertByDate v acc) acc) := by
  intro l
  induction l with
  | nil => intro acc h; simpa using h
  | cons v vs ih =>
    intro acc h
    exact ih _ (chain'_insertByDate h)

theorem chain'_sortByDate (l : List Version) :
    List.Chain' leDate (sortByDate l) :=
  chain'_foldl_insertByDate l [] List.chain'_nil

/-! Lemmas about the state-marking loops. -/

theorem markResurrectedAll_returned (l : List String) :
    ∀ st : CheckState,
      (markResurrectedAll st l).returned_shas = st.returned_shas := by
  induction l with
  | nil => intro st; rfl
  | cons s rest ih =>
    intro st
    simpa [markResurrectedAll, CheckState.mark_resurrected] using
      ih (st.mark_resurrected s)

theorem mem_markResurrectedAll (a : String) (l : List String) :
    ∀ st : CheckState,
      (a ∈ (markResurrectedAll st l).resurrected_shas ↔
        a ∈ st.resurrected_shas ∨ a ∈ l) := by
  induction l with
  | nil => intro st; simp [markResurrectedAll]
  | cons s rest ih =>
    intro st
    have := ih (st.mark_resurrected s)
    simp only [markResurrectedAll, List.foldl_cons] at this ⊢
    rw [this]
    simp [CheckState.mark_resurrected, Finset.mem_insert]
    tauto

theorem markReturnedAll_resurrected (l : List String) :
    ∀ st : CheckState,
      (markReturnedAll st l).resurrected_shas = st.resurrected_shas := by
  induction l with
  | nil => intro st; rfl
  | cons s rest ih =>
    intro st
    simpa [markReturnedAll, CheckState.mark_returned] using
      ih (st.mark_returned s)

theorem mem_markReturnedAll (a : String) (l : List String) :
    ∀ st : CheckState,
      (a ∈ (markReturnedAll st l).returned_shas ↔
        a ∈ st.returned_shas ∨ a ∈ l) := by
  induction l with
  | nil => intro st; simp [markReturnedAll]
  | cons s rest ih =>
    intro st
    have := ih (st.mark_returned s)
    simp only [markReturnedAll, List.foldl_cons] at this ⊢
    rw [this]
    simp [CheckState.mark_returned, Finset.mem_insert]
    tauto

/-! Lemmas about the partition loop. -/

theorem partition_new_mono {st : CheckState} {enabled : Bool} {cs : Option String}
    {snap : Snapshot} {mrs : List MergeRequest} {now : DateVal}
    {v : Version} {rest : List Version} {x : Version}
    (h : x ∈ (partitionVersions st enabled cs snap mrs now rest).newVersions) :
    x ∈ (partitionVersions st enabled cs snap mrs now (v :: rest)).newVersions := by
  simp only [partitionVersions]
  split
  · exact List.mem_cons_of_mem _ h
  · split
    · split
      · exact h
      · exact h
    · split
      · exact h
      · exact List.mem_cons_of_mem _ h

theorem partition_resShas_mem {st : CheckState} {enabled : Bool} {cs : Option String}
    {snap : Snapshot} {mrs : List MergeRequest} {now : DateVal} {s : String} :
    ∀ {fl : List Version},
      s ∈ (partitionVersions st enabled cs snap mrs now fl).resurrectedShas →
      s ∈ st.returned_shas ∧ s ∉ st.resurrected_shas := by
  intro fl
  induction fl with
  | nil => intro h; simp [partitionVersions] at h
  | cons v rest ih =>
    intro h
    simp only [partitionVersions] at h
    split at h
    · exact ih h
    · split at h
      · split at h
        · exact ih h
        · rename_i hguard _
          simp only [CheckState.was_returned, CheckState.was_resurrected,
            Bool.and_eq_true, Bool.not_eq_true', decide_eq_true_eq,
            decide_eq_false_iff_not] at hguard
          rcases List.mem_cons.mp h with heq | hmem
          · subst heq
            exact ⟨hguard.1.1, hguard.2⟩
          · exact ih hmem
      · split at h
        · exact ih h
        · exact ih h

theorem partition_disabled {st : CheckState} {cs : Option String}
    {snap : Snapshot} {mrs : List MergeRequest} {now : DateVal} :
    ∀ fl : List Version,
      (partitionVersions st false cs snap mrs now fl).resurrectedShas = [] ∧
      (partitionVersions st false cs snap mrs now fl).resurrectedVersions = [] := by
  intro fl
  induction fl with
  | nil => simp [partitionVersions]
  | cons v rest ih =>
    simp only [partitionVersions]
    split
    · simpa using ih
    · split
      · rename_i hguard
        simp at hguard
      · split
        · simpa using ih
        · simpa using ih

theorem partition_mem_new_of_current {st : CheckState} {enabled : Bool}
    {cs : Option String} {snap : Snapshot} {mrs : List MergeRequest} {now : DateVal}
    {v : Version} :
    ∀ {fl : List Version}, v ∈ fl → cs = some v.sha →
      v ∈ (partitionVersions st enabled cs snap mrs now fl).newVersions := by
  intro fl
  induction fl with
  | nil => intro h; simp at h
  | cons w rest ih =>
    intro hmem hcs
    rcases List.mem_cons.mp hmem with heq | htail
    · subst heq
      simp only [partitionVersions]
      split
      · exact List.mem_cons_self _ _
      · rename_i hcond
        exfalso
        apply hcond
        rw [hcs]
        simp
    · exact partition_new_mono (ih htail hcs)

theorem partition_mem_cases {st : CheckState} {enabled : Bool}
    {cs : Option String} {snap : Snapshot} {mrs : List MergeRequest} {now : DateVal}
    {v : Version} :
    ∀ {fl : List Version}, v ∈ fl →
      cs = some v.sha ∨ v.sha ∈ st.returned_shas ∨
        v ∈ (partitionVersions st enabled cs snap mrs now fl).newVersions := by
  intro fl
  induction fl with
  | nil => intro h; simp at h
  | cons w rest ih =>
    intro hmem
    rcases List.mem_cons.mp hmem with heq | htail
    · subst heq
      simp only [partitionVersions]
      split
      · rename_i hcond
        rw [beq_iff_eq] at hcond
        exact Or.inl hcond
      · split
        · rename_i hguard
          simp only [CheckState.was_returned, CheckState.was_resurrected,
            Bool.and_eq_true, Bool.not_eq_true', decide_eq_true_eq,
            decide_eq_false_iff_not] at hguard
          exact Or.inr (Or.inl hguard.1.1)
        · split
          · rename_i hret
            simp only [CheckState.was_returned, decide_eq_true_eq] at hret
            exact Or.inr (Or.inl hret)
          · exact Or.inr (Or.inr (List.mem_cons_self _ _))
    · rcases ih htail with h1 | h2 | h3
      · exact Or.inl h1
      · exact Or.inr (Or.inl h2)
      · exact Or.inr (Or.inr (partition_new_mono h3))

theorem partition_new_of_all_returned {st : CheckState} {enabled : Bool}
    {cs : Option String} {snap : Snapshot} {mrs : List MergeRequest} {now : DateVal} :
    ∀ {fl : List Version},
      (∀ v ∈ fl, cs = some v.sha ∨ v.sha ∈ st.returned_shas) →
      ∀ w ∈ (partitionVersions st enabled cs snap mrs now fl).newVersions,
        cs = some w.sha := by
  intro fl
  induction fl with
  | nil => intro _ w hw; simp [partitionVersions] at hw
  | cons v rest ih =>
    intro hall w hw
    have hallRest : ∀ u ∈ rest, cs = some u.sha ∨ u.sha ∈ st.returned_shas :=
      fun u hu => hall u (List.mem_cons_of_mem _ hu)
    simp only [partitionVersions] at hw
    split at hw
    · rename_i hcond
      rw [beq_iff_eq] at hcond
      rcases List.mem_cons.mp hw with heq | htail
      · subst heq; exact hcond
      · exact ih hallRest w htail
    · split at hw
      · split at hw
        · exact ih hallRest w hw
        · exact ih hallRest w hw
      · split at hw
        · exact ih hallRest w hw
        · rename_i hcond hguard hret
          exfalso
          rcases hall v (List.mem_cons_self _ _) with h1 | h2
          · exact hcond (by rw [h1]; simp)
          · apply hret
            simp only [CheckState.was_returned, decide_eq_true_eq]
            exact h2

theorem partition_resVersions_sha {st : CheckState} {enabled : Bool}
    {cs : Option String} {snap : Snapshot} {mrs : List MergeRequest} {now : DateVal}
    {w : Version} :
    ∀ {fl : List Version},
      w ∈ (partitionVersions st enabled cs snap mrs now fl).resurrectedVersions →
      w.sha ∈ st.returned_shas := by
  intro fl
  induction fl with
  | nil => intro h; simp [partitionVersions] at h
  | cons v rest ih =>
    intro h
    simp only [partitionVersions] at h
    split at h
    · exact ih h
    · split at h
      · split at h
        · exact ih h
        · rename_i hguard _
          simp only [CheckState.was_returned, CheckState.was_resurrected,
            Bool.and_eq_true, Bool.not_eq_true', decide_eq_true_eq,
            decide_eq_false_iff_not] at hguard
          rcases List.mem_cons.mp h with heq | hmem
          · subst heq
            exact hguard.1.1
          · exact ih hmem
      · split at h
        · exact ih h
        · exact ih h

theorem partition_ci_excluded {st : CheckState} {enabled : Bool}
    {cs : Option String} {snap : Snapshot} {mrs : List MergeRequest} {now : DateVal}
    {s : String} (hret : s ∈ st.returned_shas) (hcur : cs ≠ some s)
    (hci : hasCiStatus snap mrs s = true) :
    ∀ {fl : List Version},
      s ∉ (partitionVersions st enabled cs snap mrs now fl).resurrectedShas ∧
      (∀ v ∈ (partitionVersions st enabled cs snap mrs now fl).newVersions,
        v.sha ≠ s) ∧
      (∀ v ∈ (partitionVersions st enabled cs snap mrs now fl).resurrectedVersions,
        v.sha ≠ s) := by
  intro fl
  induction fl with
  | nil => simp [partitionVersions]
  | cons v rest ih =>
    by_cases hvs : v.sha = s
    · simp only [partitionVersions]
      split
      · rename_i hcond
        exfalso
        rw [beq_iff_eq, hvs] at hcond
        exact hcur hcond
      · split
        · split
          · exact ih
          · rename_i hguard hcig
            exfalso
            rw [hvs] at hcig
            exact hcig hci
        · split
          · exact ih
          · rename_i hcond hguard hretb
            exfalso
            apply hretb
            simp only [CheckState.was_returned, decide_eq_true_eq]
            rw [hvs]
            exact hret
    · simp only [partitionVersions]
      split
      · refine ⟨ih.1, ?_, ih.2.2⟩
        intro w hw
        rcases List.mem_cons.mp hw with heq | hmem
        · subst heq; exact hvs
        · exact ih.2.1 w hmem
      · split
        · split
          · exact ih
          · refine ⟨?_, ih.2.1, ?_⟩
            · intro hmem
              rcases List.mem_cons.mp hmem with heq | hmem2
              · exact hvs heq.symm
              · exact ih.1 hmem2
            · intro w hw
              rcases List.mem_cons.mp hw with heq | hmem2
              · subst heq; exact hvs
              · exact ih.2.2 w hmem2
        · split
          · exact ih
          · refine ⟨ih.1, ?_, ih.2.2⟩
            intro w hw
            rcases List.mem_cons.mp hw with heq | hmem
            · subst heq; exact hvs
            · exact ih.2.1 w hmem

/-! Lemmas about the latest-per-MR reduction. -/

theorem upsertLatest_keys {v : Version} {q : String × Version} :
    ∀ {m : List (String × Version)}, q ∈ upsertLatest m v →
      q.1 ∈ m.map (·.1) ∨ q.1 = v.iid := by
  intro m
  induction m with
  | nil =>
    intro h
    simp only [upsertLatest, List.mem_singleton] at h
    subst h
    exact Or.inr rfl
  | cons kv rest ih =>
    intro h
    obtain ⟨k, ev⟩ := kv
    simp only [upsertLatest] at h
    split at h
    · split at h <;>
      · rcases List.mem_cons.mp h with heq | hmem
        · subst heq
          left
          rw [List.map_cons]
          exact List.mem_cons_self _ _
        · left
          rw [List.map_cons]
          exact List.mem_cons_of_mem _ (List.mem_map_of_mem _ hmem)
    · rcases List.mem_cons.mp h with heq | hmem
      · subst heq
        left
        rw [List.map_cons]
        exact List.mem_cons_self _ _
      · rcases ih hmem with h1 | h2
        · left
          rw [List.map_cons]
          exact List.mem_cons_of_mem _ h1
        · exact Or.inr h2

theorem foldl_upsertLatest_keys {q : String × Version} :
    ∀ (nv : List Version) (acc : List (String × Version)),
      q ∈ nv.foldl upsertLatest acc →
      q.1 ∈ acc.map (·.1) ∨ q.1 ∈ nv.map (·.iid) := by
  intro nv
  induction nv with
  | nil => intro acc h; exact Or.inl (List.mem_map_of_mem _ h)
  | cons v vs ih =>
    intro acc h
    rcases ih (upsertLatest acc v) h with h1 | h2
    · rw [List.mem_map] at h1
      obtain ⟨q', hq', hk⟩ := h1
      rcases upsertLatest_keys hq' with h3 | h3
      · exact Or.inl (hk ▸ h3)
      · right
        rw [List.map_cons]
        have hq1 : q.1 = v.iid := hk ▸ h3
        rw [hq1]
        exact List.mem_cons_self _ _
    · right
      rw [List.map_cons]
      exact List.mem_cons_of_mem _ h2

theorem mem_mrLatestValues_self {cur : Version} {nv : List Version}
    (h : ∀ v ∈ nv, v.iid ≠ cur.iid) : cur ∈ mrLatestValues cur nv := by
  have hany : (nv.foldl upsertLatest []).any (fun p => p.1 == cur.iid) = false := by
    rw [List.any_eq_false]
    intro q hq hc
    have hq1 : q.1 = cur.iid := by simpa using hc
    rcases foldl_upsertLatest_keys nv [] hq with h1 | h1
    · simp at h1
    · obtain ⟨v, hv, hiid⟩ := List.mem_map.mp h1
      exact h v hv (by rw [hiid, hq1])
  show cur ∈
    (if ((nv.foldl upsertLatest []).any fun p => p.1 == cur.iid) = true
      then nv.foldl upsertLatest []
      else nv.foldl upsertLatest [] ++ [(cur.iid, cur)]).map (·.2)
  rw [hany]
  simp only [Bool.false_eq_true, if_false]
  rw [List.map_append]
  apply List.mem_append_right
  simp

/-! Case-analysis helpers for whole runs. -/

theorem runCheck_of_mrs_error {input : ResourceInput} {snap : Snapshot} {env : Env}
    (disk : DiskRead) (saveOk : Bool) {err : String} (h : snap.mrs = .error err) :
    runCheck input snap env disk saveOk = ⟨.error err, disk, [], []⟩ := by
  unfold runCheck
  rw [h]

theorem runCheck_of_mrs_nil {input : ResourceInput} {snap : Snapshot} {env : Env}
    (disk : DiskRead) (saveOk : Bool) (h : snap.mrs = .ok []) :
    runCheck input snap env disk saveOk = ⟨.ok [], disk, [], []⟩ := by
  unfold runCheck
  rw [h]
  rfl

theorem runCheck_of_build_error {input : ResourceInput} {snap : Snapshot} {env : Env}
    (disk : DiskRead) (saveOk : Bool) {mrs : List MergeRequest} {err : String}
    (hm : snap.mrs = .ok mrs) (hne : mrs ≠ [])
    (hb : buildAll input.source snap env (cutoffOf input.source env) mrs = .error err) :
    runCheck input snap env disk saveOk = ⟨.error err, disk, [], []⟩ := by
  have hne' : mrs.isEmpty = false := by
    cases mrs with
    | nil => exact absurd rfl hne
    | cons a l => rfl
  unfold runCheck
  split
  · rename_i heq
    rw [hm] at heq
    cases heq
  · rename_i mrs2 heq
    rw [hm] at heq
    injection heq with heq2
    subst heq2
    rw [hne']
    simp only [Bool.false_eq_true, if_false]
    rw [hb]

theorem runCheck_of_build_ok {input : ResourceInput} {snap : Snapshot} {env : Env}
    (disk : DiskRead) (saveOk : Bool) {mrs : List MergeRequest} {avs : List Version}
    (hm : snap.mrs = .ok mrs) (hne : mrs ≠ [])
    (hb : buildAll input.source snap env (cutoffOf input.source env) mrs = .ok avs) :
    runCheck input snap env disk saveOk = runMain input snap env disk saveOk mrs avs := by
  have hne' : mrs.isEmpty = false := by
    cases mrs with
    | nil => exact absurd rfl hne
    | cons a l => rfl
  unfold runCheck
  split
  · rename_i heq
    rw [hm] at heq
    cases heq
  · rename_i mrs2 heq
    rw [hm] at heq
    injection heq with heq2
    subst heq2
    rw [hne']
    simp only [Bool.false_eq_true, if_false]
    rw [hb]

theorem runMain_output (input : ResourceInput) (snap : Snapshot) (env : Env)
    (disk : DiskRead) (saveOk : Bool) (mrs : List MergeRequest) (avs : List Version) :
    (runMain input snap env disk saveOk mrs avs).output =
      .ok (sortByDate
        ((runPartition input snap env (CheckState.load disk) mrs avs).resurrectedVersions ++
          (runPartition input snap env (CheckState.load disk) mrs avs).newVersions)) := rfl

theorem runMain_newShas (input : ResourceInput) (snap : Snapshot) (env : Env)
    (disk : DiskRead) (saveOk : Bool) (mrs : List MergeRequest) (avs : List Version) :
    (runMain input snap env disk saveOk mrs avs).newShas =
      newShasOf input (runPartition input snap env (CheckState.load disk) mrs avs) := rfl

theorem runMain_resShas (input : ResourceInput) (snap : Snapshot) (env : Env)
    (disk : DiskRead) (saveOk : Bool) (mrs : List MergeRequest) (avs : List Version) :
    (runMain input snap env disk saveOk mrs avs).resurrectedShas =
      (runPartition input snap env (CheckState.load disk) mrs avs).resurrectedShas := rfl

theorem runMain_disk (input : ResourceInput) (snap : Snapshot) (env : Env)
    (disk : DiskRead) (saveOk : Bool) (mrs : List MergeRequest) (avs : List Version) :
    (runMain input snap env disk saveOk mrs avs).disk =
      (if !((newShasOf input
              (runPartition input snap env (CheckState.load disk) mrs avs)).isEmpty &&
            (runPartition input snap env (CheckState.load disk) mrs avs).resurrectedShas.isEmpty)
        then saveDisk
          (markReturnedAll
            (markResurrectedAll (CheckState.load disk)
              (runPartition input snap env (CheckState.load disk) mrs avs).resurrectedShas)
            (newShasOf input (runPartition input snap env (CheckState.load disk) mrs avs)))
          saveOk disk
        else disk) := rfl

/-- The saved state of a run whose pipeline ran with state `st` and
partition `p`. -/
theorem runMain_disk_cases (input : ResourceInput) (snap : Snapshot) (env : Env)
    (disk : DiskRead) (saveOk : Bool) (mrs : List MergeRequest) (avs : List Version) :
    (runMain input snap env disk saveOk mrs avs).disk = disk ∨
    ((runMain input snap env disk saveOk mrs avs).disk =
      .found (some (markReturnedAll
        (markResurrectedAll (CheckState.load disk)
          (runPartition input snap env (CheckState.load disk) mrs avs).resurrectedShas)
        (newShasOf input (runPartition input snap env (CheckState.load disk) mrs avs))))) := by
  rw [runMain_disk]
  split
  · unfold saveDisk
    split
    · exact Or.inr rfl
    · exact Or.inl rfl
  · exact Or.inl rfl

theorem runMain_okList (input : ResourceInput) (snap : Snapshot) (env : Env)
    (disk : DiskRead) (saveOk : Bool) (mrs : List MergeRequest) (avs : List Version) :
    (runMain input snap env disk saveOk mrs avs).okList =
      sortByDate
        ((runPartition input snap env (CheckState.load disk) mrs avs).resurrectedVersions ++
          (runPartition input snap env (CheckState.load disk) mrs avs).newVersions) := rfl

theorem runCheck_output_congr (input : ResourceInput) (snap : Snapshot) (env : Env)
    (saveOk : Bool) {d1 d2 : DiskRead} (h : CheckState.load d1 = CheckState.load d2) :
    (runCheck input snap env d1 saveOk).output =
      (runCheck input snap env d2 saveOk).output := by
  cases hsm : snap.mrs with
  | error err =>
    rw [runCheck_of_mrs_error d1 saveOk hsm, runCheck_of_mrs_error d2 saveOk hsm]
  | ok mrs =>
    cases mrs with
    | nil =>
      rw [runCheck_of_mrs_nil d1 saveOk hsm, runCheck_of_mrs_nil d2 saveOk hsm]
    | cons m ms =>
      cases hb : buildAll input.source snap env (cutoffOf input.source env) (m :: ms) with
      | error err =>
        rw [runCheck_of_build_error d1 saveOk hsm (by simp) hb,
          runCheck_of_build_error d2 saveOk hsm (by simp) hb]
      | ok avs =>
        rw [runCheck_of_build_ok d1 saveOk hsm (by simp) hb,
          runCheck_of_build_ok d2 saveOk hsm (by simp) hb,
          runMain_output, runMain_output, h]

theorem runCheck_output_saveOk_irrelevant (input : ResourceInput) (snap : Snapshot)
    (env : Env) (disk : DiskRead) (k1 k2 : Bool) :
    (runCheck input snap env disk k1).output = (runCheck input snap env disk k2).output := by
  cases hsm : snap.mrs with
  | error err =>
    rw [runCheck_of_mrs_error disk k1 hsm, runCheck_of_mrs_error disk k2 hsm]
  | ok mrs =>
    cases mrs with
    | nil =>
      rw [runCheck_of_mrs_nil disk k1 hsm, runCheck_of_mrs_nil disk k2 hsm]
    | cons m ms =>
      cases hb : buildAll input.source snap env (cutoffOf input.source env) (m :: ms) with
      | error err =>
        rw [runCheck_of_build_error disk k1 hsm (by simp) hb,
          runCheck_of_build_error disk k2 hsm (by simp) hb]
      | ok avs =>
        rw [runCheck_of_build_ok disk k1 hsm (by simp) hb,
          runCheck_of_build_ok disk k2 hsm (by simp) hb,
          runMain_output, runMain_output]

/-! The claims. -/

/-- C10: when the upstream listing returns zero merge requests, the run
writes exactly the empty JSON array and exits successfully, with the
state file untouched, the new and resurrected sha lists empty, and the
whole result independent of the state-file content (the state is never
loaded, mutated, or saved) — the conclusion holds for every `disk` and
for every supplied input, including one with a current version. -/
theorem c10_empty_listing (input : ResourceInput) (snap : Snapshot) (env : Env)
    (disk : DiskRead) (saveOk : Bool) (h : snap.mrs = .ok []) :
    runCheck input snap env disk saveOk = ⟨.ok [], disk, [], []⟩ :=
  runCheck_of_mrs_nil disk saveOk h

/-- C10 witness: a run with a current version supplied, a non-empty state
file and zero upstream merge requests emits `[]` and leaves the state
file as it was. -/
theorem c10_witness :
    runCheck ⟨some curB, srcPlain⟩ snapEmpty envPlain diskRetA false =
      ⟨.ok [], diskRetA, [], []⟩ :=
  c10_empty_listing ⟨some curB, srcPlain⟩ snapEmpty envPlain diskRetA false rfl

/-- C4: no version is resurrected in a run whose current version's
committed date has year ≥ 2099 or lies within 120 seconds of now, and
none is resurrected when the explicit config or environment disable flag
is set (with or without a current version). -/
theorem c4_cooldown_disables_resurrection (input : ResourceInput) (snap : Snapshot)
    (env : Env) (disk : DiskRead) (saveOk : Bool)
    (h : (∃ cur, input.version = some cur ∧
            (cur.committed_date.year ≥ 2099 ∨
              (env.now.seconds - cur.committed_date.seconds).natAbs < 120)) ∨
         input.source.disable_resurrection.getD false = true ∨
         env.envDisableResurrection = true) :
    (runCheck input snap env disk saveOk).resurrectedShas = [] := by
  have hen : resurrectionEnabled input env = false := by
    rcases h with ⟨cur, hcur, hdate⟩ | hdis | henv
    · rcases hdate with h1 | h1 <;> simp [resurrectionEnabled, hcur, h1]
    · cases hv : input.version <;> simp [resurrectionEnabled, hv, hdis]
    · cases hv : input.version <;> simp [resurrectionEnabled, hv, henv]
  cases hsm : snap.mrs with
  | error err => rw [runCheck_of_mrs_error disk saveOk hsm]
  | ok mrs =>
    cases mrs with
    | nil => rw [runCheck_of_mrs_nil disk saveOk hsm]
    | cons m ms =>
      cases hb : buildAll input.source snap env (cutoffOf input.source env) (m :: ms) with
      | error err => rw [runCheck_of_build_error disk saveOk hsm (by simp) hb]
      | ok avs =>
        rw [runCheck_of_build_ok disk saveOk hsm (by simp) hb, runMain_resShas]
        unfold runPartition
        rw [hen]
        exact (partition_disabled _).1

/-- C4 witness: a current version 50 seconds from now keeps the stuck,
status-free sha `a` from being resurrected. -/
theorem c4_witness :
    (runCheck ⟨some ⟨"2", ⟨999950, 2025⟩, "b"⟩, srcPlain⟩ snapAB envPlain diskRetA
      true).resurrectedShas = [] :=
  c4_cooldown_disables_resurrection ⟨some ⟨"2", ⟨999950, 2025⟩, "b"⟩, srcPlain⟩
    snapAB envPlain diskRetA true
    (Or.inl ⟨⟨"2", ⟨999950, 2025⟩, "b"⟩, rfl, Or.inr (by decide)⟩)

/-- C8: state-store failures never propagate out of a run: with a
missing, unreadable, or unparsable state file the run produces the same
output as with an explicitly empty state, and the output of a run does
not depend on whether saving the state succeeds or fails. -/
theorem c8_state_store_failures_absorbed (input : ResourceInput) (snap : Snapshot)
    (env : Env) (saveOk : Bool) (disk : DiskRead)
    (hbad : disk = DiskRead.notFound ∨ disk = DiskRead.readError ∨
      disk = DiskRead.found none) :
    (runCheck input snap env disk saveOk).output =
      (runCheck input snap env (DiskRead.found (some CheckState.default)) saveOk).output ∧
    (runCheck input snap env disk true).output =
      (runCheck input snap env disk false).output := by
  constructor
  · rcases hbad with h | h | h <;> subst h <;>
      exact runCheck_output_congr input snap env saveOk rfl
  · exact runCheck_output_saveOk_irrelevant input snap env disk true false

/-- C8 witness: with a missing state file the run behaves as with the
empty state, and a failed save leaves the output unchanged. -/
theorem c8_witness :
    (runCheck ⟨none, srcPlain⟩ snapAB envPlain DiskRead.notFound true).output =
      (runCheck ⟨none, srcPlain⟩ snapAB envPlain
        (DiskRead.found (some CheckState.default)) true).output ∧
    (runCheck ⟨none, srcPlain⟩ snapAB envPlain DiskRead.notFound true).output =
      (runCheck ⟨none, srcPlain⟩ snapAB envPlain DiskRead.notFound false).output :=
  c8_state_store_failures_absorbed ⟨none, srcPlain⟩ snapAB envPlain true
    DiskRead.notFound (Or.inl rfl)

/-- C9 counterexample: a failing commit-status query is an adapter
failure, yet the run does not abort: with stuck sha `a` it resurrects it
anyway, succeeds with output, and mutates the persisted state (marking
`a` resurrected) — contradicting the claim that every adapter failure
aborts the run without state mutation. -/
theorem c9_counterexample :
    snapABerr.statuses "a" = .error "boom" ∧
    (runCheck ⟨some curB, srcPlain⟩ snapABerr envPlain diskRetA true).output =
      .ok [curB, ⟨"1", ⟨1000000, 2025⟩, "a"⟩] ∧
    (runCheck ⟨some curB, srcPlain⟩ snapABerr envPlain diskRetA true).disk =
      .found (some ⟨{"a"}, {"a"}⟩) := by
  refine ⟨rfl, by decide, by decide⟩

/-- C9 (amended): a failure of the merge-request listing, or of the
candidate-building loop (diff or commit fetches), aborts the run as a
process failure with the state file untouched and nothing marked; only
the commit-status probe absorbs its failure (and resurrects anyway). -/
theorem c9_fetch_failures_abort (input : ResourceInput) (snap : Snapshot) (env : Env)
    (disk : DiskRead) (saveOk : Bool) :
    (∀ err, snap.mrs = .error err →
      runCheck input snap env disk saveOk = ⟨.error err, disk, [], []⟩) ∧
    (∀ mrs err, snap.mrs = .ok mrs → mrs ≠ [] →
      buildAll input.source snap env (cutoffOf input.source env) mrs = .error err →
      runCheck input snap env disk saveOk = ⟨.error err, disk, [], []⟩) :=
  ⟨fun _ h => runCheck_of_mrs_error disk saveOk h,
    fun _ err hm hne hb => runCheck_of_build_error disk saveOk hm hne hb⟩

/-- C9 witness: a failing merge-request listing aborts the run with the
state file untouched. -/
theorem c9_witness :
    runCheck ⟨none, srcPlain⟩ snapDown envPlain diskRetA true =
      ⟨.error "gitlab down", diskRetA, [], []⟩ :=
  (c9_fetch_failures_abort ⟨none, srcPlain⟩ snapDown envPlain diskRetA true).1
    "gitlab down" rfl

/-- C5 counterexample: with two merge requests whose commits share a
committed date, the emitted output keeps them in discovery order (iid 2
before iid 1), so ties are not broken by entity id as claimed. -/
theorem c5_counterexample :
    (runCheck ⟨none, srcPlain⟩ snapTie envPlain DiskRead.notFound true).output =
      .ok [⟨"2", ⟨900000, 2025⟩, "b"⟩, ⟨"1", ⟨900000, 2025⟩, "a"⟩] ∧
    ¬ List.Chain' leDateIid
      [⟨"2", ⟨900000, 2025⟩, "b"⟩, ⟨"1", ⟨900000, 2025⟩, "a"⟩] := by
  refine ⟨by decide, ?_⟩
  intro hch
  have h1 : leDateIid ⟨"2", ⟨900000, 2025⟩, "b"⟩ ⟨"1", ⟨900000, 2025⟩, "a"⟩ :=
    (List.chain'_cons.mp hch).1
  exact absurd h1 (by decide)

/-- C5 (amended): every successful output is sorted ascending by commit
timestamp; versions with equal timestamps keep their pre-sort relative
order — the sort is stable and nothing compares entity ids. -/
theorem c5_output_sorted_by_timestamp (input : ResourceInput) (snap : Snapshot)
    (env : Env) (disk : DiskRead) (saveOk : Bool) (l : List Version)
    (h : (runCheck input snap env disk saveOk).output = .ok l) :
    List.Chain' leDate l := by
  cases hsm : snap.mrs with
  | error err =>
    rw [runCheck_of_mrs_error disk saveOk hsm] at h
    exact absurd h (by simp)
  | ok mrs =>
    cases mrs with
    | nil =>
      rw [runCheck_of_mrs_nil disk saveOk hsm] at h
      have h2 : ([] : List Version) = l := by
        have h3 : Except.ok ([] : List Version) = .ok l := h
        injection h3
      exact h2 ▸ List.chain'_nil
    | cons m ms =>
      cases hb : buildAll input.source snap env (cutoffOf input.source env) (m :: ms) with
      | error err =>
        rw [runCheck_of_build_error disk saveOk hsm (by simp) hb] at h
        exact absurd h (by simp)
      | ok avs =>
        rw [runCheck_of_build_ok disk saveOk hsm (by simp) hb, runMain_output] at h
        injection h with h2
        exact h2 ▸ chain'_sortByDate _

/-- C5 witness: a concrete successful run's output is sorted ascending by
commit timestamp. -/
theorem c5_witness :
    List.Chain' leDate
      [⟨"1", ⟨900000, 2025⟩, "a"⟩, ⟨"2", ⟨950000, 2025⟩, "b"⟩] :=
  c5_output_sorted_by_timestamp ⟨none, srcPlain⟩ snapAB envPlain DiskRead.notFound true
    [⟨"1", ⟨900000, 2025⟩, "a"⟩, ⟨"2", ⟨950000, 2025⟩, "b"⟩] (by decide)

/-- C1 counterexample: a run in which a current version is supplied but
the upstream returns zero merge requests emits the empty array, so the
supplied current version does not appear in the output — contradicting
the claim that it appears in every run's output regardless of what the
upstream returns. -/
theorem c1_counterexample :
    (⟨some curB, srcPlain⟩ : ResourceInput).version = some curB ∧
    (runCheck ⟨some curB, srcPlain⟩ snapEmpty envPlain DiskRead.notFound true).output =
      .ok [] :=
  ⟨rfl, rfl⟩

/-- C1 (amended): when a current version is supplied, the run reaches the
state-based pipeline (non-empty MR list, candidates built), and no built
candidate carries the current version's iid, the current version is
re-inserted and appears in the emitted output exactly as supplied. -/
theorem c1_current_echoed (input : ResourceInput) (snap : Snapshot) (env : Env)
    (disk : DiskRead) (saveOk : Bool) (cur : Version) (mrs : List MergeRequest)
    (avs : List Version)
    (hcur : input.version = some cur)
    (hm : snap.mrs = .ok mrs) (hne : mrs ≠ [])
    (hb : buildAll input.source snap env (cutoffOf input.source env) mrs = .ok avs)
    (hiid : ∀ v ∈ avs, v.iid ≠ cur.iid) :
    ∃ l, (runCheck input snap env disk saveOk).output = .ok l ∧ cur ∈ l := by
  rw [runCheck_of_build_ok disk saveOk hm hne hb, runMain_output]
  refine ⟨_, rfl, ?_⟩
  rw [mem_sortByDate]
  apply List.mem_append_right
  unfold runPartition
  apply partition_mem_new_of_current ?_ (by rw [hcur]; rfl)
  simp only [filteredVersions, hcur]
  rw [mem_sortByDate]
  apply mem_mrLatestValues_self
  intro v hv
  have hv2 : v ∈ sortByDate avs := (List.mem_filter.mp hv).1
  exact hiid v (mem_sortByDate.mp hv2)

/-- C1 witness: with current version on MR 2 and only MR 1 upstream, the
current version is echoed unmodified in the output. -/
theorem c1_witness :
    ∃ l, (runCheck ⟨some curB, srcPlain⟩ snapA envPlain DiskRead.notFound true).output =
      .ok l ∧ curB ∈ l :=
  c1_current_echoed ⟨some curB, srcPlain⟩ snapA envPlain DiskRead.notFound true curB
    [mrA] [⟨"1", ⟨900000, 2025⟩, "a"⟩] rfl rfl (by decide) (by decide) (by decide)

/-- C3: a previously returned, non-current sha whose commit-status query
succeeds with at least one entry is never resurrected in that run, and no
version with that sha appears in the emitted output at all. -/
theorem c3_status_suppresses_resurrection (input : ResourceInput) (snap : Snapshot)
    (env : Env) (disk : DiskRead) (saveOk : Bool) (mrs : List MergeRequest)
    (s : String) (stl : List CommitStatus)
    (hm : snap.mrs = .ok mrs)
    (hknown : mrs.any (fun m => m.sha == some s) = true)
    (hret : s ∈ (CheckState.load disk).returned_shas)
    (hcur : input.version.map (·.sha) ≠ some s)
    (hst : snap.statuses s = .ok stl) (hl : stl ≠ []) :
    s ∉ (runCheck input snap env disk saveOk).resurrectedShas ∧
    ∀ v ∈ (runCheck input snap env disk saveOk).okList, v.sha ≠ s := by
  have hci : hasCiStatus snap mrs s = true := by
    unfold hasCiStatus
    rw [if_pos hknown, hst]
    cases stl with
    | nil => exact absurd rfl hl
    | cons a l => rfl
  cases mrs with
  | nil => simp at hknown
  | cons m ms =>
    cases hb : buildAll input.source snap env (cutoffOf input.source env) (m :: ms) with
    | error err =>
      rw [runCheck_of_build_error disk saveOk hm (by simp) hb]
      exact ⟨by simp, by simp [RunResult.okList]⟩
    | ok avs =>
      rw [runCheck_of_build_ok disk saveOk hm (by simp) hb]
      have h7 := @partition_ci_excluded (CheckState.load disk)
        (resurrectionEnabled input env) (input.version.map (·.sha)) snap (m :: ms)
        env.now s hret hcur hci
        (filteredVersions input (windowOf input.source) (sortByDate avs))
      constructor
      · rw [runMain_resShas]
        unfold runPartition
        exact h7.1
      · rw [runMain_okList]
        intro v hv
        rw [mem_sortByDate] at hv
        unfold runPartition at hv
        rcases List.mem_append.mp hv with h1 | h1
        · exact h7.2.2 v h1
        · exact h7.2.1 v h1

/-- C3 witness: stuck sha `a` (returned, not current) with a pending
status entry is not resurrected and is absent from the output. -/
theorem c3_witness :
    "a" ∉ (runCheck ⟨some curB, srcPlain⟩ snapABci envPlain diskRetA
      true).resurrectedShas ∧
    ∀ v ∈ (runCheck ⟨some curB, srcPlain⟩ snapABci envPlain diskRetA true).okList,
      v.sha ≠ "a" :=
  c3_status_suppresses_resurrection ⟨some curB, srcPlain⟩ snapABci envPlain diskRetA
    true [mrB, mrA] "a" [⟨some "job", "pending"⟩] rfl (by decide) (by decide)
    (by decide) rfl (by decide)

/-- C7: the persisted state is append-only — the saved returned and
resurrected sets are supersets of the loaded ones — and the invariant
`resurrected ⊆ returned` is preserved, because a sha is only marked
resurrected when it was already in the returned set. -/
theorem c7_state_append_only (input : ResourceInput) (snap : Snapshot) (env : Env)
    (disk : DiskRead) (saveOk : Bool) :
    (CheckState.load disk).returned_shas ⊆
      (CheckState.load (runCheck input snap env disk saveOk).disk).returned_shas ∧
    (CheckState.load disk).resurrected_shas ⊆
      (CheckState.load (runCheck input snap env disk saveOk).disk).resurrected_shas ∧
    ((CheckState.load disk).resurrected_shas ⊆ (CheckState.load disk).returned_shas →
      (CheckState.load (runCheck input snap env disk saveOk).disk).resurrected_shas ⊆
        (CheckState.load (runCheck input snap env disk saveOk).disk).returned_shas) := by
  cases hsm : snap.mrs with
  | error err =>
    rw [runCheck_of_mrs_error disk saveOk hsm]
    exact ⟨Finset.Subset.refl _, Finset.Subset.refl _, fun h => h⟩
  | ok mrs =>
    cases mrs with
    | nil =>
      rw [runCheck_of_mrs_nil disk saveOk hsm]
      exact ⟨Finset.Subset.refl _, Finset.Subset.refl _, fun h => h⟩
    | cons m ms =>
      cases hb : buildAll input.source snap env (cutoffOf input.source env) (m :: ms) with
      | error err =>
        rw [runCheck_of_build_error disk saveOk hsm (by simp) hb]
        exact ⟨Finset.Subset.refl _, Finset.Subset.refl _, fun h => h⟩
      | ok avs =>
        rw [runCheck_of_build_ok disk saveOk hsm (by simp) hb]
        rcases runMain_disk_cases input snap env disk saveOk (m :: ms) avs with hd | hd
        · rw [hd]
          exact ⟨Finset.Subset.refl _, Finset.Subset.refl _, fun h => h⟩
        · rw [hd]
          simp only [CheckState.load]
          refine ⟨?_, ?_, ?_⟩
          · intro a ha
            rw [mem_markReturnedAll]
            left
            rw [markResurrectedAll_returned]
            exact ha
          · intro a ha
            rw [markReturnedAll_resurrected, mem_markResurrectedAll]
            left
            exact ha
          · intro hsub a ha
            rw [markReturnedAll_resurrected, mem_markResurrectedAll] at ha
            rw [mem_markReturnedAll]
            left
            rw [markResurrectedAll_returned]
            rcases ha with h1 | h2
            · exact hsub h1
            · exact (partition_resShas_mem h2).1

/-- C7 witness: a run that resurrects sha `a` keeps the loaded sets inside
the saved ones and preserves `resurrected ⊆ returned`. -/
theorem c7_witness :
    (CheckState.load diskRetA).returned_shas ⊆
      (CheckState.load
        (runCheck ⟨some curB, srcPlain⟩ snapAB envPlain diskRetA true).disk).returned_shas ∧
    (CheckState.load diskRetA).resurrected_shas ⊆
      (CheckState.load
        (runCheck ⟨some curB, srcPlain⟩ snapAB envPlain diskRetA true).disk).resurrected_shas ∧
    (CheckState.load
        (runCheck ⟨some curB, srcPlain⟩ snapAB envPlain diskRetA true).disk).resurrected_shas ⊆
      (CheckState.load
        (runCheck ⟨some curB, srcPlain⟩ snapAB envPlain diskRetA true).disk).returned_shas := by
  have h := c7_state_append_only ⟨some curB, srcPlain⟩ snapAB envPlain diskRetA true
  exact ⟨h.1, h.2.1, h.2.2 (by decide)⟩

/-! Run-level helpers for the multi-run claims. -/

theorem runPartition_mem_cases (input : ResourceInput) (snap : Snapshot) (env : Env)
    (st : CheckState) (mrs : List MergeRequest) (avs : List Version) {v : Version}
    (h : v ∈ filteredVersions input (windowOf input.source) (sortByDate avs)) :
    input.version.map (·.sha) = some v.sha ∨ v.sha ∈ st.returned_shas ∨
      v ∈ (runPartition input snap env st mrs avs).newVersions :=
  partition_mem_cases h

theorem runPartition_new_of_all_returned (input : ResourceInput) (snap : Snapshot)
    (env : Env) (st : CheckState) (mrs : List MergeRequest) (avs : List Version)
    (h : ∀ v ∈ filteredVersions input (windowOf input.source) (sortByDate avs),
      input.version.map (·.sha) = some v.sha ∨ v.sha ∈ st.returned_shas) :
    ∀ w ∈ (runPartition input snap env st mrs avs).newVersions,
      input.version.map (·.sha) = some w.sha :=
  partition_new_of_all_returned h

theorem runPartition_resVersions_sha (input : ResourceInput) (snap : Snapshot)
    (env : Env) (st : CheckState) (mrs : List MergeRequest) (avs : List Version)
    {w : Version}
    (h : w ∈ (runPartition input snap env st mrs avs).resurrectedVersions) :
    w.sha ∈ st.returned_shas :=
  partition_resVersions_sha h

theorem mem_newShasOf {input : ResourceInput} {p : Partition} {u : Version}
    (hu : u ∈ p.newVersions) (hcs : ¬(input.version.map (·.sha) = some u.sha)) :
    u.sha ∈ newShasOf input p := by
  unfold newShasOf
  rw [List.mem_map]
  refine ⟨u, ?_, rfl⟩
  rw [List.mem_filter]
  refine ⟨hu, ?_⟩
  simp only [Bool.not_eq_true', beq_eq_false_iff_ne, ne_eq]
  exact hcs

theorem runMain_disk_returned (input : ResourceInput) (snap : Snapshot) (env : Env)
    (disk : DiskRead) (mrs : List MergeRequest) (avs : List Version) {a : String}
    (h : a ∈ (CheckState.load disk).returned_shas ∨
         a ∈ newShasOf input (runPartition input snap env (CheckState.load disk) mrs avs)) :
    a ∈ (CheckState.load (runMain input snap env disk true mrs avs).disk).returned_shas := by
  rcases h with h | h
  · rcases runMain_disk_cases input snap env disk true mrs avs with hd | hd
    · rw [hd]
      exact h
    · rw [hd]
      simp only [CheckState.load]
      rw [mem_markReturnedAll]
      left
      rw [markResurrectedAll_returned]
      exact h
  · have hne2 : (newShasOf input
        (runPartition input snap env (CheckState.load disk) mrs avs)).isEmpty = false := by
      cases hq : newShasOf input (runPartition input snap env (CheckState.load disk) mrs avs) with
      | nil => rw [hq] at h; simp at h
      | cons x xs => rfl
    rw [runMain_disk, hne2]
    simp only [Bool.false_and, Bool.not_false, if_true]
    unfold saveDisk
    rw [if_pos rfl]
    simp only [CheckState.load]
    rw [mem_markReturnedAll]
    right
    exact h

theorem run_not_resurrected_again (input : ResourceInput) (snap : Snapshot) (env : Env)
    (disk : DiskRead) (sha : String)
    (h : sha ∈ (CheckState.load disk).resurrected_shas) :
    sha ∉ (runCheck input snap env disk true).resurrectedShas ∧
    sha ∈ (CheckState.load (runCheck input snap env disk true).disk).resurrected_shas := by
  cases hsm : snap.mrs with
  | error err =>
    rw [runCheck_of_mrs_error disk true hsm]
    exact ⟨by simp, h⟩
  | ok mrs =>
    cases mrs with
    | nil =>
      rw [runCheck_of_mrs_nil disk true hsm]
      exact ⟨by simp, h⟩
    | cons m ms =>
      cases hb : buildAll input.source snap env (cutoffOf input.source env) (m :: ms) with
      | error err =>
        rw [runCheck_of_build_error disk true hsm (by simp) hb]
        exact ⟨by simp, h⟩
      | ok avs =>
        rw [runCheck_of_build_ok disk true hsm (by simp) hb]
        constructor
        · rw [runMain_resShas]
          intro hmem
          exact (partition_resShas_mem hmem).2 h
        · rcases runMain_disk_cases input snap env disk true (m :: ms) avs with hd | hd
          · rw [hd]
            exact h
          · rw [hd]
            simp only [CheckState.load]
            rw [markReturnedAll_resurrected, mem_markResurrectedAll]
            left
            exact h

theorem run_resurrected_marked (input : ResourceInput) (snap : Snapshot) (env : Env)
    (disk : DiskRead) (sha : String)
    (h : sha ∈ (runCheck input snap env disk true).resurrectedShas) :
    sha ∈ (CheckState.load (runCheck input snap env disk true).disk).resurrected_shas := by
  cases hsm : snap.mrs with
  | error err =>
    rw [runCheck_of_mrs_error disk true hsm] at h
    simp at h
  | ok mrs =>
    cases mrs with
    | nil =>
      rw [runCheck_of_mrs_nil disk true hsm] at h
      simp at h
    | cons m ms =>
      cases hb : buildAll input.source snap env (cutoffOf input.source env) (m :: ms) with
      | error err =>
        rw [runCheck_of_build_error disk true hsm (by simp) hb] at h
        simp at h
      | ok avs =>
        rw [runCheck_of_build_ok disk true hsm (by simp) hb] at h ⊢
        rw [runMain_resShas] at h
        have hne2 : ((runPartition input snap env (CheckState.load disk)
            (m :: ms) avs).resurrectedShas).isEmpty = false := by
          cases hq : (runPartition input snap env (CheckState.load disk)
              (m :: ms) avs).resurrectedShas with
          | nil => rw [hq] at h; simp at h
          | cons x xs => rfl
        rw [runMain_disk, hne2]
        simp only [Bool.and_false, Bool.not_false, if_true]
        unfold saveDisk
        rw [if_pos rfl]
        simp only [CheckState.load]
        rw [markReturnedAll_resurrected, mem_markResurrectedAll]
        right
        exact h

theorem runSeq_no_more (sha : String) :
    ∀ (specs : List RunSpec) (d : DiskRead),
      sha ∈ (CheckState.load d).resurrected_shas →
      (runSeq d specs).countP (fun r => decide (sha ∈ r.resurrectedShas)) = 0 := by
  intro specs
  induction specs with
  | nil => intro d _; rfl
  | cons r rs ih =>
    intro d h
    have h1 := run_not_resurrected_again r.input r.snap r.env d sha h
    simp only [runSeq, List.countP_cons]
    rw [ih _ h1.2, decide_eq_false h1.1]
    simp

/-- C2: across any sequence of runs with the state file persisted between
them, a given sha is resurrected in at most one run — once resurrected it
is recorded, the record is never deleted, and the guard never resurrects
a recorded sha again. -/
theorem c2_resurrected_at_most_once (sha : String) (specs : List RunSpec)
    (d : DiskRead) :
    (runSeq d specs).countP (fun r => decide (sha ∈ r.resurrectedShas)) ≤ 1 := by
  induction specs generalizing d with
  | nil => simp [runSeq]
  | cons r rs ih =>
    simp only [runSeq, List.countP_cons]
    by_cases h : sha ∈ (runCheck r.input r.snap r.env d true).resurrectedShas
    · have h2 := run_resurrected_marked r.input r.snap r.env d sha h
      rw [runSeq_no_more sha rs _ h2, decide_eq_true h]
      simp
    · rw [decide_eq_false h]
      simpa using ih _

/-- C6: running the pipeline a second time on the same inputs with the
state persisted in between yields no genuinely new version: the second
run marks nothing as newly returned, and every version it emits either
carries the current version's sha (the echo) or a sha already in the
persisted returned set (which covers the resurrected synthetic
versions). -/
theorem c6_second_run_no_new (input : ResourceInput) (snap : Snapshot) (env : Env)
    (d : DiskRead) :
    (runCheck input snap env (runCheck input snap env d true).disk true).newShas = [] ∧
    ∀ v ∈ (runCheck input snap env (runCheck input snap env d true).disk true).okList,
      input.version.map (·.sha) = some v.sha ∨
      v.sha ∈ (CheckState.load (runCheck input snap env d true).disk).returned_shas := by
  cases hsm : snap.mrs with
  | error err =>
    rw [runCheck_of_mrs_error d true hsm, runCheck_of_mrs_error _ true hsm]
    exact ⟨rfl, by simp [RunResult.okList]⟩
  | ok mrs =>
    cases mrs with
    | nil =>
      rw [runCheck_of_mrs_nil d true hsm, runCheck_of_mrs_nil _ true hsm]
      exact ⟨rfl, by simp [RunResult.okList]⟩
    | cons m ms =>
      cases hb : buildAll input.source snap env (cutoffOf input.source env) (m :: ms) with
      | error err =>
        rw [runCheck_of_build_error d true hsm (by simp) hb,
          runCheck_of_build_error _ true hsm (by simp) hb]
        exact ⟨rfl, by simp [RunResult.okList]⟩
      | ok avs =>
        rw [runCheck_of_build_ok d true hsm (by simp) hb,
          runCheck_of_build_ok _ true hsm (by simp) hb]
        have key : ∀ u ∈ filteredVersions input (windowOf input.source) (sortByDate avs),
            input.version.map (·.sha) = some u.sha ∨
            u.sha ∈ (CheckState.load
              (runMain input snap env d true (m :: ms) avs).disk).returned_shas := by
          intro u hu
          rcases runPartition_mem_cases input snap env (CheckState.load d) (m :: ms) avs hu
            with h1 | h2 | h3
          · exact Or.inl h1
          · exact Or.inr (runMain_disk_returned input snap env d (m :: ms) avs (Or.inl h2))
          · by_cases hcs : input.version.map (·.sha) = some u.sha
            · exact Or.inl hcs
            · exact Or.inr (runMain_disk_returned input snap env d (m :: ms) avs
                (Or.inr (mem_newShasOf h3 hcs)))
        have hall := runPartition_new_of_all_returned input snap env
          (CheckState.load (runMain input snap env d true (m :: ms) avs).disk)
          (m :: ms) avs key
        constructor
        · rw [runMain_newShas]
          unfold newShasOf
          rw [List.map_eq_nil_iff]
          rw [List.filter_eq_nil_iff]
          intro a ha
          have hcs := hall a ha
          simp [hcs]
        · intro v hv
          rw [runMain_okList, mem_sortByDate] at hv
          rcases List.mem_append.mp hv with h1 | h1
          · exact Or.inr (runPartition_resVersions_sha input snap env _ (m :: ms) avs h1)
          · exact Or.inl (hall v h1)

/-- C6 witness: after a first run that marked sha `a` as returned, the
second identical run marks nothing new and emits only the echoed current
version and the (resurrected) already-returned sha. -/
theorem c6_witness :
    (runCheck ⟨some curB, srcPlain⟩ snapAB envPlain
      (runCheck ⟨some curB, srcPlain⟩ snapAB envPlain DiskRead.notFound true).disk
      true).newShas = [] ∧
    ∀ v ∈ (runCheck ⟨some curB, srcPlain⟩ snapAB envPlain
      (runCheck ⟨some curB, srcPlain⟩ snapAB envPlain DiskRead.notFound true).disk
      true).okList,
      (⟨some curB, srcPlain⟩ : ResourceInput).version.map (·.sha) = some v.sha ∨
      v.sha ∈ (CheckState.load
        (runCheck ⟨some curB, srcPlain⟩ snapAB envPlain DiskRead.notFound
          true).disk).returned_shas :=
  c6_second_run_no_new ⟨some curB, srcPlain⟩ snapAB envPlain DiskRead.notFound

end MrRes
